import Mathlib

/-!
Verification of the binary layout engine of `esp32-image-composer-rs`.

The Rust sources are shallowly embedded: byte buffers (`&[u8]` / `Vec<u8>`)
become a length together with an index function, `u8`/`u32` values become
`Nat` (with explicit `% 2^32` where 32-bit wrap-around matters), and
fallible functions return `Except Err`.
-/

/-- A byte buffer: a length and an index function.  Values at indices `≥ len`
are irrelevant junk (the embedded code never reads them, mirroring the Rust
bounds discipline). -/
structure ByteBuf where
  len : Nat
  get : Nat → Nat

/-- Build a buffer from an explicit list of bytes (for concrete inputs). -/
def ByteBuf.ofList (l : List Nat) : ByteBuf :=
  ⟨l.length, fun i => l.getD i 0⟩

/-- `data[..n]` on a buffer. -/
def ByteBuf.take (b : ByteBuf) (n : Nat) : ByteBuf :=
  ⟨min n b.len, b.get⟩

/-- `data[n..]` on a buffer. -/
def ByteBuf.drop (b : ByteBuf) (n : Nat) : ByteBuf :=
  ⟨b.len - n, fun i => b.get (n + i)⟩

/-- `data[j] = v` on a buffer. -/
def ByteBuf.set (b : ByteBuf) (j v : Nat) : ByteBuf :=
  ⟨b.len, fun i => if i = j then v else b.get i⟩

/-- `data[s..e]` on a buffer. -/
def ByteBuf.slice (b : ByteBuf) (s e : Nat) : ByteBuf :=
  ⟨e - s, fun i => b.get (s + i)⟩

/-- The structured failures of the embedded code (the Rust code uses `anyhow`
string errors; each constructor corresponds to one distinct error site). -/
inductive Err where
  | emptyInput          -- "Cannot calculate checksum for empty data" / "Image data is empty"
  | noChecksumLocation  -- "Cannot find checksum location"
  | tooSmall            -- "Image too small for ESP32 header" / "... too small for ESP32 image header"
  | badMagic            -- "Invalid ESP32 image magic byte"
  | tooManySegments     -- "Invalid segment count"
  | misaligned          -- "App image needs ... bytes of padding"
  | notAligned          -- "Offset ... not aligned"
  | insufficientSpace   -- "Not enough flash space for OTA partition"
  | exceedsFlash        -- "Partition ... exceeds flash size"
  | overlap             -- "Partition ... overlaps with partition ..."
  | outOfBounds         -- "Write exceeds flash image bounds"
  deriving DecidableEq, Repr

/-- 2^32, the modulus of Rust `u32` arithmetic. -/
def U32 : Nat := 4294967296

/-- `u32::from_le_bytes([b0, b1, b2, b3])`. -/
def leWord (b0 b1 b2 b3 : Nat) : Nat :=
  b0 + 256 * b1 + 65536 * b2 + 16777216 * b3

/-- Read byte `i`, zero when out of bounds (the zero-padding of the final
partial word in `calculate_checksum`, src/esp32.rs lines 49-56). -/
def byteOrZero (b : ByteBuf) (i : Nat) : Nat :=
  if i < b.len then b.get i else 0

/-- The 4-byte little-endian word starting at `base`, zero-padded past the
end of the buffer (src/esp32.rs lines 45-58). -/
def wordAt (b : ByteBuf) (base : Nat) : Nat :=
  leWord (byteOrZero b base) (byteOrZero b (base + 1))
    (byteOrZero b (base + 2)) (byteOrZero b (base + 3))

/-- The word-XOR loop of `EspChecksum::calculate_checksum`
(src/esp32.rs lines 45-60): fold `n` words starting at word index `i`
into the accumulator. -/
def xorWordsFrom (b : ByteBuf) : Nat → Nat → Nat → Nat
  | 0, _, acc => acc
  | n + 1, i, acc => xorWordsFrom b n (i + 1) (Nat.xor acc (wordAt b (4 * i)))

/-- The final 32-bit-to-8-bit reduction of `calculate_checksum`
(src/esp32.rs lines 62-65): XOR the four shifted copies, then truncate
to `u8`. -/
def reduce32to8 (w : Nat) : Nat :=
  (Nat.xor (Nat.xor (Nat.xor (w / 16777216) (w / 65536)) (w / 256)) w) % 256

/-- `EspChecksum::calculate_checksum` (src/esp32.rs lines 33-68):
errors on empty input, otherwise seeds the accumulator with
`ESP_ROM_CHECKSUM_INITIAL = 0xEF` and folds `(len + 3) / 4` words. -/
def calculate_checksum (b : ByteBuf) : Except Err Nat :=
  if b.len = 0 then .error .emptyInput
  else .ok (reduce32to8 (xorWordsFrom b ((b.len + 3) / 4) 0 239))

/-! ### Specification-side checksum (C2)

The spec (§4.1 `checksum`) describes the value as: split the input into
4-byte little-endian words, zero-padding the final partial word on the
right, XOR-fold the words into a 32-bit accumulator seeded `0xEF`, then
reduce to 8 bits by XOR-ing the accumulator's four constituent bytes,
most significant first.  The following definitions follow those words. -/

/-- Split a byte list into its 4-byte little-endian words, the final
partial word zero-padded on the right. -/
def chunkWords : List Nat → List Nat
  | [] => []
  | b0 :: rest =>
    leWord b0 (rest.getD 0 0) (rest.getD 1 0) (rest.getD 2 0) :: chunkWords (rest.drop 3)
termination_by l => l.length
decreasing_by
  simp only [List.length_drop, List.length_cons]
  omega

/-- The four constituent bytes of a 32-bit accumulator, XOR-ed most
significant first. -/
def xorBytesOf (w : Nat) : Nat :=
  Nat.xor (Nat.xor (Nat.xor (w / 16777216 % 256) (w / 65536 % 256)) (w / 256 % 256)) (w % 256)

/-- The checksum value as worded by the spec. -/
def checksumSpec (l : List Nat) : Nat :=
  xorBytesOf ((chunkWords l).foldl Nat.xor 239)

/-! ### Equivalence lemmas for C2 -/

theorem xor_mod_two_pow (a b k : Nat) :
    Nat.xor a b % 2 ^ k = Nat.xor (a % 2 ^ k) (b % 2 ^ k) := by
  apply Nat.eq_of_testBit_eq
  intro i
  show ((a ^^^ b) % 2 ^ k).testBit i = ((a % 2 ^ k) ^^^ (b % 2 ^ k)).testBit i
  rw [Nat.testBit_mod_two_pow, Nat.testBit_xor, Nat.testBit_xor,
    Nat.testBit_mod_two_pow, Nat.testBit_mod_two_pow]
  cases Decidable.em (i < k) with
  | inl h => simp [h]
  | inr h => simp [h]

theorem reduce32to8_eq_xorBytesOf (w : Nat) : reduce32to8 w = xorBytesOf w := by
  have h256 : (256 : Nat) = 2 ^ 8 := by norm_num
  unfold reduce32to8 xorBytesOf
  rw [h256, xor_mod_two_pow, xor_mod_two_pow, xor_mod_two_pow]

theorem byteOrZero_ofList (l : List Nat) (i : Nat) :
    byteOrZero (ByteBuf.ofList l) i = l.getD i 0 := by
  unfold byteOrZero ByteBuf.ofList
  simp only
  by_cases h : i < l.length
  · simp [h]
  · simp only [h, if_false]
    rw [List.getD_eq_default]
    omega

theorem getD_drop (l : List Nat) (n i : Nat) :
    (l.drop n).getD i 0 = l.getD (n + i) 0 := by
  simp [List.getD, List.getElem?_drop]

theorem wordAt_ofList (l : List Nat) (p : Nat) :
    wordAt (ByteBuf.ofList l) p
      = leWord (l.getD p 0) (l.getD (p + 1) 0) (l.getD (p + 2) 0) (l.getD (p + 3) 0) := by
  unfold wordAt
  rw [byteOrZero_ofList, byteOrZero_ofList, byteOrZero_ofList, byteOrZero_ofList]

theorem wordAt_shift4 (l : List Nat) (i : Nat) :
    wordAt (ByteBuf.ofList l) (4 * (i + 1)) = wordAt (ByteBuf.ofList (l.drop 4)) (4 * i) := by
  rw [wordAt_ofList, wordAt_ofList, getD_drop, getD_drop, getD_drop, getD_drop]
  have h1 : 4 * (i + 1) = 4 + 4 * i := by omega
  rw [h1]
  simp [Nat.add_assoc]

/-- Shifting the word loop by one word equals dropping four bytes. -/
theorem xorWordsFrom_drop4 (l : List Nat) (n : Nat) :
    ∀ i acc, xorWordsFrom (ByteBuf.ofList l) n (i + 1) acc
      = xorWordsFrom (ByteBuf.ofList (l.drop 4)) n i acc := by
  induction n with
  | zero => intro i acc; rfl
  | succ n ih =>
    intro i acc
    show xorWordsFrom (ByteBuf.ofList l) n (i + 1 + 1)
        (Nat.xor acc (wordAt (ByteBuf.ofList l) (4 * (i + 1))))
      = xorWordsFrom (ByteBuf.ofList (l.drop 4)) n (i + 1)
        (Nat.xor acc (wordAt (ByteBuf.ofList (l.drop 4)) (4 * i)))
    rw [ih, wordAt_shift4]

theorem wordAt_zero_ofList (b0 : Nat) (rest : List Nat) :
    wordAt (ByteBuf.ofList (b0 :: rest)) 0
      = leWord b0 (rest.getD 0 0) (rest.getD 1 0) (rest.getD 2 0) := by
  rw [wordAt_ofList]
  rfl

/-- The indexed word loop of the source equals the spec's fold over the
chunked word list. -/
theorem xorWordsFrom_eq_foldl (l : List Nat) :
    ∀ acc, xorWordsFrom (ByteBuf.ofList l) ((l.length + 3) / 4) 0 acc
      = (chunkWords l).foldl Nat.xor acc := by
  induction l using chunkWords.induct with
  | case1 =>
    intro acc
    show acc = List.foldl Nat.xor acc (chunkWords [])
    simp [chunkWords]
  | case2 b0 rest ih =>
    intro acc
    have hchunk : chunkWords (b0 :: rest)
        = leWord b0 (rest.getD 0 0) (rest.getD 1 0) (rest.getD 2 0) :: chunkWords (rest.drop 3) := by
      simp [chunkWords]
    have hlen : ((b0 :: rest).length + 3) / 4 = ((rest.drop 3).length + 3) / 4 + 1 := by
      simp only [List.length_cons, List.length_drop]
      omega
    rw [hchunk, List.foldl_cons, ← ih, hlen]
    show xorWordsFrom (ByteBuf.ofList (b0 :: rest)) (((rest.drop 3).length + 3) / 4) (0 + 1)
        (Nat.xor acc (wordAt (ByteBuf.ofList (b0 :: rest)) (4 * 0))) = _
    rw [xorWordsFrom_drop4]
    have hdrop : (b0 :: rest).drop 4 = rest.drop 3 := rfl
    rw [hdrop, wordAt_zero_ofList]

/-- C2: `calculate_checksum` on a non-empty byte sequence returns exactly the
spec's value (seed `0xEF`, XOR-fold of 4-byte little-endian words with the
final partial word zero-padded, reduced by XOR-ing the accumulator's four
bytes); on the empty sequence it returns the empty-input error. -/
theorem calculate_checksum_spec (l : List Nat) :
    calculate_checksum (ByteBuf.ofList l)
      = if l.isEmpty then .error .emptyInput else .ok (checksumSpec l) := by
  unfold calculate_checksum checksumSpec
  by_cases h : l = []
  · subst h; rfl
  · have hne : ¬(ByteBuf.ofList l).len = 0 := by
      unfold ByteBuf.ofList
      simpa using h
    have hne2 : ¬l.isEmpty = true := by simpa using h
    rw [if_neg hne, if_neg hne2, reduce32to8_eq_xorBytesOf]
    congr 2
    exact xorWordsFrom_eq_foldl l 239

/-! ### Checksum location scan, patch and verify (src/esp32.rs lines 144-198) -/

/-- The backward scan `while last_data_byte > 0 && data[last_data_byte] == 0xFF`
(src/esp32.rs lines 150-153 and 185-188), started at index `j`. -/
def scanBack (b : ByteBuf) : Nat → Nat
  | 0 => 0
  | j + 1 => if b.get (j + 1) = 255 then scanBack b j else j + 1

/-- `last_data_byte`: the backward scan started at `data.len() - 1`. -/
def findLastNonFF (b : ByteBuf) : Nat := scanBack b (b.len - 1)

/-- `EspChecksum::calculate_and_patch_checksum` (src/esp32.rs lines 144-170):
locate the checksum byte by the backward `0xFF` scan, compute the checksum
over everything before it, and write it there.  Returns the patched buffer
together with the checksum (the Rust function mutates `data` in place and
returns the checksum). -/
def calculate_and_patch_checksum (b : ByteBuf) : Except Err (ByteBuf × Nat) :=
  if b.len = 0 then .error .emptyInput
  else
    let loc := findLastNonFF b
    match calculate_checksum (b.take loc) with
    | .error e => .error e
    | .ok c => .ok (if loc < b.len then b.set loc c else b, c)

/-- `EspChecksum::verify_checksum` (src/esp32.rs lines 179-198). -/
def verify_checksum (b : ByteBuf) : Except Err Bool :=
  if b.len = 0 then .error .emptyInput
  else
    let loc := findLastNonFF b
    if loc = 0 then .error .noChecksumLocation
    else
      match calculate_checksum (b.take loc) with
      | .error e => .error e
      | .ok c => .ok (b.get loc == c)

/-! ### Scan lemmas -/

theorem scanBack_succ (b : ByteBuf) (j : Nat) :
    scanBack b (j + 1) = if b.get (j + 1) = 255 then scanBack b j else j + 1 := rfl

theorem scanBack_le (b : ByteBuf) : ∀ j, scanBack b j ≤ j := by
  intro j
  induction j with
  | zero => exact Nat.le_refl 0
  | succ j ih =>
    rw [scanBack_succ]
    by_cases h : b.get (j + 1) = 255
    · rw [if_pos h]; omega
    · rw [if_neg h]

theorem scanBack_above (b : ByteBuf) :
    ∀ j k, scanBack b j < k → k ≤ j → b.get k = 255 := by
  intro j
  induction j with
  | zero => intro k h1 h2; omega
  | succ j ih =>
    intro k h1 h2
    by_cases h : b.get (j + 1) = 255
    · rw [scanBack_succ, if_pos h] at h1
      by_cases hk : k = j + 1
      · rw [hk]; exact h
      · exact ih k h1 (by omega)
    · rw [scanBack_succ, if_neg h] at h1
      omega

theorem scanBack_eq_of (b : ByteBuf) :
    ∀ j i, i ≤ j → b.get i ≠ 255 → (∀ k, i < k → k ≤ j → b.get k = 255) →
      scanBack b j = i := by
  intro j
  induction j with
  | zero =>
    intro i h1 _ _
    have hi : i = 0 := by omega
    rw [hi]
    rfl
  | succ j ih =>
    intro i h1 h2 h3
    by_cases hk : i = j + 1
    · rw [hk] at h2
      rw [scanBack_succ, if_neg h2, hk]
    · have hij : i ≤ j := by omega
      have hget : b.get (j + 1) = 255 := h3 (j + 1) (by omega) (by omega)
      rw [scanBack_succ, if_pos hget]
      exact ih i hij h2 (fun k hk1 hk2 => h3 k hk1 (by omega))

theorem scanBack_zero_of (b : ByteBuf) :
    ∀ j, (∀ k, 1 ≤ k → k ≤ j → b.get k = 255) → scanBack b j = 0 := by
  intro j
  induction j with
  | zero => intro _; rfl
  | succ j ih =>
    intro h
    have hget : b.get (j + 1) = 255 := h (j + 1) (by omega) (by omega)
    rw [scanBack_succ, if_pos hget]
    exact ih (fun k hk1 hk2 => h k hk1 (by omega))

theorem findLastNonFF_le (b : ByteBuf) : findLastNonFF b ≤ b.len - 1 :=
  scanBack_le b (b.len - 1)

/-! ### Congruence: the checksum reads only in-bounds bytes -/

theorem wordAt_congr (b1 b2 : ByteBuf) (hlen : b1.len = b2.len)
    (hget : ∀ i, i < b1.len → b1.get i = b2.get i) (p : Nat) :
    wordAt b1 p = wordAt b2 p := by
  unfold wordAt byteOrZero
  rw [← hlen]
  have h : ∀ q, (if q < b1.len then b1.get q else 0) = (if q < b1.len then b2.get q else 0) := by
    intro q
    by_cases hq : q < b1.len
    · rw [if_pos hq, if_pos hq, hget q hq]
    · rw [if_neg hq, if_neg hq]
  rw [h p, h (p + 1), h (p + 2), h (p + 3)]

theorem xorWordsFrom_congr (b1 b2 : ByteBuf) (hlen : b1.len = b2.len)
    (hget : ∀ i, i < b1.len → b1.get i = b2.get i) :
    ∀ n i acc, xorWordsFrom b1 n i acc = xorWordsFrom b2 n i acc := by
  intro n
  induction n with
  | zero => intro i acc; rfl
  | succ n ih =>
    intro i acc
    show xorWordsFrom b1 n (i + 1) _ = xorWordsFrom b2 n (i + 1) _
    rw [wordAt_congr b1 b2 hlen hget, ih]

theorem calculate_checksum_congr (b1 b2 : ByteBuf) (hlen : b1.len = b2.len)
    (hget : ∀ i, i < b1.len → b1.get i = b2.get i) :
    calculate_checksum b1 = calculate_checksum b2 := by
  unfold calculate_checksum
  rw [← hlen]
  by_cases h : b1.len = 0
  · rw [if_pos h, if_pos h]
  · rw [if_neg h, if_neg h, xorWordsFrom_congr b1 b2 hlen hget]

/-! ### C6: patch-then-verify -/

/-- Unpack a successful `calculate_and_patch_checksum`. -/
theorem patch_ok_elim (b b' : ByteBuf) (c : Nat)
    (h : calculate_and_patch_checksum b = .ok (b', c)) :
    1 ≤ b.len ∧ 1 ≤ findLastNonFF b ∧ b' = b.set (findLastNonFF b) c
      ∧ calculate_checksum (b.take (findLastNonFF b)) = .ok c := by
  unfold calculate_and_patch_checksum at h
  by_cases hlen : b.len = 0
  · rw [if_pos hlen] at h; exact absurd h (by simp)
  · rw [if_neg hlen] at h
    simp only at h
    cases hchk : calculate_checksum (b.take (findLastNonFF b)) with
    | error e => rw [hchk] at h; exact absurd h (by simp)
    | ok c0 =>
      rw [hchk] at h
      dsimp only at h
      have hloc : ¬ (ByteBuf.take b (findLastNonFF b)).len = 0 := by
        intro h0
        unfold calculate_checksum at hchk
        rw [if_pos h0] at hchk
        exact absurd hchk (by simp)
      have hloc2 : 1 ≤ findLastNonFF b := by
        unfold ByteBuf.take at hloc
        simp only at hloc
        omega
      have hlt : findLastNonFF b < b.len := by
        have := findLastNonFF_le b
        omega
      rw [if_pos hlt] at h
      simp only [Except.ok.injEq, Prod.mk.injEq] at h
      obtain ⟨h1, h2⟩ := h
      subst h2
      exact ⟨by omega, hloc2, h1.symm, rfl⟩

/-- C6 (amended): patch-then-verify is a fixed point whenever the patched
checksum byte is not `0xFF`: for every buffer on which
`calculate_and_patch_checksum` succeeds with a checksum value other than
`0xFF`, `verify_checksum` on the patched buffer returns `Ok(true)`. -/
theorem patch_then_verify (b b' : ByteBuf) (c : Nat)
    (h : calculate_and_patch_checksum b = .ok (b', c)) (hc : c ≠ 255) :
    verify_checksum b' = .ok true := by
  obtain ⟨hlen, hloc, hb', hchk⟩ := patch_ok_elim b b' c h
  have hle : findLastNonFF b ≤ b.len - 1 := findLastNonFF_le b
  have hblen : b'.len = b.len := by rw [hb']; rfl
  have hget_at : b'.get (findLastNonFF b) = c := by
    rw [hb']
    unfold ByteBuf.set
    simp
  have hget_ne : ∀ i, i ≠ findLastNonFF b → b'.get i = b.get i := by
    intro i hi
    rw [hb']
    unfold ByteBuf.set
    simp [hi]
  have hfind : findLastNonFF b' = findLastNonFF b := by
    unfold findLastNonFF
    rw [hblen]
    exact scanBack_eq_of b' (b.len - 1) (findLastNonFF b) hle
      (by rw [hget_at]; exact hc)
      (by
        intro k hk1 hk2
        rw [hget_ne k (by omega)]
        exact scanBack_above b (b.len - 1) k hk1 hk2)
  unfold verify_checksum
  rw [if_neg (by omega)]
  simp only [hfind]
  rw [if_neg (by omega)]
  have hcongr : calculate_checksum (b'.take (findLastNonFF b))
      = calculate_checksum (b.take (findLastNonFF b)) := by
    apply calculate_checksum_congr
    · unfold ByteBuf.take
      simp only [hblen]
    · intro i hi
      unfold ByteBuf.take at hi ⊢
      simp only at hi ⊢
      exact hget_ne i (by omega)
  rw [hcongr, hchk, hget_at]
  simp

/-- C6 counterexample: the claim as stated is false.  On `[0x10, 0x00]`
the patch succeeds and stores checksum `0xFF`; the backward scan of the
patched buffer then skips the stored byte and `verify_checksum` returns
the no-checksum-location error instead of `true`. -/
theorem patch_then_verify_cex :
    calculate_and_patch_checksum (ByteBuf.ofList [16, 0])
        = .ok (ByteBuf.set (ByteBuf.ofList [16, 0]) 1 255, 255)
      ∧ verify_checksum (ByteBuf.set (ByteBuf.ofList [16, 0]) 1 255)
        = .error .noChecksumLocation :=
  ⟨rfl, rfl⟩

/-- C6 witness: a concrete instance of the amended theorem.  On `[0x01, 0x00]`
the patch stores `0xEE` and verification of the patched buffer succeeds. -/
theorem patch_then_verify_witness :
    verify_checksum (ByteBuf.set (ByteBuf.ofList [1, 0]) 1 238) = .ok true :=
  patch_then_verify (ByteBuf.ofList [1, 0]) (ByteBuf.set (ByteBuf.ofList [1, 0]) 1 238) 238
    rfl (by decide)

/-! ### C10: where verify_checksum can return a verdict at all -/

/-- C10: for every non-empty buffer whose bytes at indices `≥ 1` are all
`0xFF` (including every 1-byte buffer), `verify_checksum` returns the
cannot-find-checksum-location error; and it returns `Ok` of some boolean
exactly when the backward `0xFF` scan stops at an index `≥ 1`. -/
theorem verify_checksum_location (b : ByteBuf) (hlen : 1 ≤ b.len) :
    ((∀ i, 1 ≤ i → i < b.len → b.get i = 255) →
        verify_checksum b = .error .noChecksumLocation)
      ∧ ((∃ v, verify_checksum b = .ok v) ↔ 1 ≤ findLastNonFF b) := by
  constructor
  · intro hFF
    have hzero : findLastNonFF b = 0 := by
      unfold findLastNonFF
      exact scanBack_zero_of b (b.len - 1) (fun k hk1 hk2 => hFF k hk1 (by omega))
    unfold verify_checksum
    rw [if_neg (by omega)]
    simp only [hzero]
    rfl
  · constructor
    · rintro ⟨v, hv⟩
      unfold verify_checksum at hv
      rw [if_neg (by omega)] at hv
      simp only at hv
      by_cases hz : findLastNonFF b = 0
      · rw [if_pos hz] at hv; exact absurd hv (by simp)
      · omega
    · intro hge
      have htake : ¬ (ByteBuf.take b (findLastNonFF b)).len = 0 := by
        unfold ByteBuf.take
        simp only
        omega
      refine ⟨b.get (findLastNonFF b) == reduce32to8 (xorWordsFrom (b.take (findLastNonFF b))
        (((b.take (findLastNonFF b)).len + 3) / 4) 0 239), ?_⟩
      unfold verify_checksum
      rw [if_neg (by omega)]
      simp only
      rw [if_neg (by omega)]
      unfold calculate_checksum
      rw [if_neg htake]

/-- C10 witness: on `[0xE9, 0xFF]` every byte at index `≥ 1` is `0xFF` and
`verify_checksum` indeed returns the no-checksum-location error. -/
theorem verify_checksum_location_witness :
    verify_checksum (ByteBuf.ofList [233, 255]) = .error .noChecksumLocation :=
  (verify_checksum_location (ByteBuf.ofList [233, 255]) (by decide)).1
    (by
      intro i h1 h2
      have hi : i = 1 := by
        unfold ByteBuf.ofList at h2
        simp only [List.length_cons, List.length_nil] at h2
        omega
      subst hi
      rfl)

/-! ### §4.1 header parse (src/esp32.rs lines 77-133) -/

/-- The declared length in the 8-byte record at `pos`: the little-endian
word in bytes `pos+4 .. pos+7` (src/esp32.rs lines 115-120). -/
def segSizeAt (b : ByteBuf) (pos : Nat) : Nat :=
  leWord (b.get (pos + 4)) (b.get (pos + 5)) (b.get (pos + 6)) (b.get (pos + 7))

/-- The segment walk of `parse_esp32_image_header` (src/esp32.rs lines
113-126): up to `n` records; a record that would run past the buffer end
breaks the loop. -/
def parseWalk (b : ByteBuf) : Nat → Nat → Nat → Nat
  | 0, _, acc => acc
  | n + 1, pos, acc =>
    if pos + 8 ≤ b.len then parseWalk b n (pos + 8) (acc + segSizeAt b pos) else acc

/-- `EspChecksum::parse_esp32_image_header` (src/esp32.rs lines 77-133).
Returns `(image_size, checksum_location)`. -/
def parse_esp32_image_header (b : ByteBuf) : Except Err (Nat × Nat) :=
  if b.len < 24 then .error .tooSmall
  else if b.get 0 ≠ 233 then .error .badMagic
  else
    let segment_count := b.get 1
    if 16 < segment_count then .error .tooManySegments
    else
      let base := 24 + (if Nat.testBit (b.get 3) 7 then 16 else 0)
      let start := base + segment_count * 8
      let image_size := parseWalk b segment_count start start
      .ok (image_size + 1, image_size)

/-! ### Specification-side size formula (C7)

The spec (§4.1 `parse_header`) describes the successful result as: header
bytes (24, plus 16 when the extended-header flag bit is set) + 8 bytes per
declared segment + the sum of the walked segments' declared lengths + 1
checksum byte, where the walk stops at the first record that would run past
the buffer end. -/

/-- Header bytes: 24, plus 16 when bit 7 of byte 3 is set. -/
def headerBytes (b : ByteBuf) : Nat :=
  24 + (if Nat.testBit (b.get 3) 7 then 16 else 0)

/-- Where the walked 8-byte records start. -/
def segTableStart (b : ByteBuf) : Nat :=
  headerBytes b + 8 * b.get 1

/-- How many declared records fit entirely inside the buffer. -/
def walkedCount (b : ByteBuf) : Nat :=
  min (b.get 1) ((b.len - segTableStart b) / 8)

/-- Sum of `k` consecutive record lengths starting at `pos`. -/
def sumSegSizes (b : ByteBuf) : Nat → Nat → Nat
  | _, 0 => 0
  | pos, k + 1 => segSizeAt b pos + sumSegSizes b (pos + 8) k

/-- The sum of the walked segments' declared lengths. -/
def walkedSum (b : ByteBuf) : Nat :=
  sumSegSizes b (segTableStart b) (walkedCount b)

theorem parseWalk_succ (b : ByteBuf) (n pos acc : Nat) :
    parseWalk b (n + 1) pos acc
      = if pos + 8 ≤ b.len then parseWalk b n (pos + 8) (acc + segSizeAt b pos) else acc := rfl

/-- The source's walk computes the accumulator plus the spec's walked sum. -/
theorem parseWalk_eq_sum (b : ByteBuf) :
    ∀ n pos acc, parseWalk b n pos acc
      = acc + sumSegSizes b pos (min n ((b.len - pos) / 8)) := by
  intro n
  induction n with
  | zero =>
    intro pos acc
    show acc = acc + sumSegSizes b pos (min 0 ((b.len - pos) / 8))
    rw [Nat.zero_min]
    rfl
  | succ n ih =>
    intro pos acc
    rw [parseWalk_succ]
    by_cases h : pos + 8 ≤ b.len
    · rw [if_pos h, ih]
      have hdiv : (b.len - pos) / 8 = (b.len - (pos + 8)) / 8 + 1 := by omega
      rw [hdiv, Nat.succ_min_succ]
      show acc + segSizeAt b pos + sumSegSizes b (pos + 8) (min n ((b.len - (pos + 8)) / 8))
        = acc + (segSizeAt b pos + sumSegSizes b (pos + 8) (min n ((b.len - (pos + 8)) / 8)))
      omega
    · rw [if_neg h]
      have hdiv : (b.len - pos) / 8 = 0 := by omega
      rw [hdiv, Nat.min_zero]
      rfl

/-- C7: `parse_esp32_image_header` fails with the too-small error exactly
when fewer than 24 bytes are available; given 24 bytes, fails with the
bad-magic error exactly when byte 0 is not `0xE9`; given a valid magic,
fails with the too-many-segments error exactly when the declared segment
count exceeds 16; and in every other case succeeds, with total size =
header bytes + 8 per declared segment + the sum of the walked segments'
declared lengths + 1 checksum byte (records past the buffer end truncate
the walk), the checksum location one byte before the total. -/
theorem parse_header_cases (b : ByteBuf) :
    (parse_esp32_image_header b = .error .tooSmall ↔ b.len < 24)
    ∧ (24 ≤ b.len →
        (parse_esp32_image_header b = .error .badMagic ↔ b.get 0 ≠ 233))
    ∧ (24 ≤ b.len → b.get 0 = 233 →
        (parse_esp32_image_header b = .error .tooManySegments ↔ 16 < b.get 1))
    ∧ (24 ≤ b.len → b.get 0 = 233 → b.get 1 ≤ 16 →
        parse_esp32_image_header b
          = .ok (headerBytes b + 8 * b.get 1 + walkedSum b + 1,
              headerBytes b + 8 * b.get 1 + walkedSum b)) := by
  unfold parse_esp32_image_header
  by_cases h24 : b.len < 24
  · rw [if_pos h24]
    exact ⟨iff_of_true rfl h24,
      fun h => absurd h (by omega),
      fun h => absurd h (by omega),
      fun h => absurd h (by omega)⟩
  · rw [if_neg h24]
    by_cases hm : b.get 0 = 233
    · rw [if_neg (show ¬(b.get 0 ≠ 233) from fun hx => hx hm)]
      dsimp only
      by_cases hsc : 16 < b.get 1
      · rw [if_pos hsc]
        exact ⟨iff_of_false (by simp) h24,
          fun _ => iff_of_false (by simp) (fun hx => hx hm),
          fun _ _ => iff_of_true rfl hsc,
          fun _ _ hle => absurd hsc (by omega)⟩
      · rw [if_neg hsc]
        have hwalk : parseWalk b (b.get 1)
            (24 + (if Nat.testBit (b.get 3) 7 then 16 else 0) + b.get 1 * 8)
            (24 + (if Nat.testBit (b.get 3) 7 then 16 else 0) + b.get 1 * 8)
            = headerBytes b + 8 * b.get 1 + walkedSum b := by
          have hst : 24 + (if Nat.testBit (b.get 3) 7 then 16 else 0) + b.get 1 * 8
              = segTableStart b := by
            unfold segTableStart headerBytes
            ring
          rw [hst, parseWalk_eq_sum]
          unfold walkedSum walkedCount segTableStart
          ring
        exact ⟨iff_of_false (by simp) h24,
          fun _ => iff_of_false (by simp) (fun hx => hx hm),
          fun _ _ => iff_of_false (by simp) hsc,
          fun _ _ _ => by rw [hwalk]⟩
    · rw [if_pos hm]
      exact ⟨iff_of_false (by simp) h24,
        fun _ => iff_of_true rfl hm,
        fun _ h0 => absurd h0 hm,
        fun _ h0 => absurd h0 hm⟩

/-- C7 witness: a 25-byte buffer `E9 00 ... 00` parses successfully with
total size 25 (= 24 header bytes + 0 segments + 1 checksum byte) and
checksum location 24. -/
theorem parse_header_cases_witness :
    parse_esp32_image_header (ByteBuf.ofList (233 :: List.replicate 24 0))
      = .ok (25, 24) :=
  (parse_header_cases (ByteBuf.ofList (233 :: List.replicate 24 0))).2.2.2
    (by decide) (by decide) (by decide)

/-! ### Inspector region logic (src/main.rs lines 534-616) -/

/-- The inspector's segment loop (src/main.rs lines 577-591): `n`
iterations; a record that would run past the buffer end is skipped without
advancing `pos` (equivalent to breaking, proved below). -/
def inspWalk (b : ByteBuf) : Nat → Nat → Nat → Nat
  | 0, _, acc => acc
  | n + 1, pos, acc =>
    if pos + 8 ≤ b.len then inspWalk b n (pos + 8) (acc + segSizeAt b pos)
    else inspWalk b n pos acc

theorem inspWalk_succ (b : ByteBuf) (n pos acc : Nat) :
    inspWalk b (n + 1) pos acc
      = if pos + 8 ≤ b.len then inspWalk b n (pos + 8) (acc + segSizeAt b pos)
        else inspWalk b n pos acc := rfl

/-- The header-walk branch of `get_component_at_offset`
(src/main.rs lines 549-602): note the segment count is read as the 32-bit
little-endian word at bytes `start+4 .. start+7`, must be 1..16, and the
derived end offset is clamped to the buffer length. -/
def inspectHeaderSlice (img : ByteBuf) (start : Nat) : Option ByteBuf :=
  if start + 24 ≤ img.len then
    let segment_count := leWord (img.get (start + 4)) (img.get (start + 5))
      (img.get (start + 6)) (img.get (start + 7))
    if 0 < segment_count ∧ segment_count ≤ 16 then
      let total := 24 + (if Nat.testBit (img.get (start + 3)) 7 then 16 else 0)
        + segment_count * 8
      let total := inspWalk img segment_count (start + total) total + 1
      let endOff := min (start + total) img.len
      if start < endOff then some (img.slice start endOff) else none
    else none
  else none

/-- `get_component_at_offset` (src/main.rs lines 534-616): `None` when the
start offset is out of range or the magic byte does not match; otherwise the
header-walk slice when that branch produces one, else the fallback span up
to the next component offset (or the end of the buffer). -/
def get_component_at_offset (img : ByteBuf) (start next : Nat) : Option ByteBuf :=
  if img.len ≤ start then none
  else if img.get start ≠ 233 then none
  else
    match inspectHeaderSlice img start with
    | some s => some s
    | none =>
      let endOff := if next < img.len then next else img.len
      if start < endOff then some (img.slice start endOff) else none

/-! ### Walk equivalences for C4 -/

theorem inspWalk_stuck (b : ByteBuf) (pos : Nat) (h : ¬pos + 8 ≤ b.len) :
    ∀ n acc, inspWalk b n pos acc = acc := by
  intro n
  induction n with
  | zero => intro acc; rfl
  | succ n ih =>
    intro acc
    rw [inspWalk_succ, if_neg h]
    exact ih acc

/-- The inspector's skip-without-advancing loop computes the same result as
the parse walk's break. -/
theorem inspWalk_eq_parseWalk (b : ByteBuf) :
    ∀ n pos acc, inspWalk b n pos acc = parseWalk b n pos acc := by
  intro n
  induction n with
  | zero => intro pos acc; rfl
  | succ n ih =>
    intro pos acc
    rw [inspWalk_succ, parseWalk_succ]
    by_cases h : pos + 8 ≤ b.len
    · rw [if_pos h, if_pos h, ih]
    · rw [if_neg h, if_neg h]
      exact inspWalk_stuck b pos h n acc

theorem segSizeAt_drop (img : ByteBuf) (start pos : Nat) :
    segSizeAt (img.drop start) pos = segSizeAt img (start + pos) := by
  show leWord (img.get (start + (pos + 4))) (img.get (start + (pos + 5)))
      (img.get (start + (pos + 6))) (img.get (start + (pos + 7)))
    = leWord (img.get (start + pos + 4)) (img.get (start + pos + 5))
      (img.get (start + pos + 6)) (img.get (start + pos + 7))
  rw [show start + (pos + 4) = start + pos + 4 by omega,
    show start + (pos + 5) = start + pos + 5 by omega,
    show start + (pos + 6) = start + pos + 6 by omega,
    show start + (pos + 7) = start + pos + 7 by omega]

/-- The parse walk on a dropped buffer is the walk on the whole buffer with
shifted positions. -/
theorem parseWalk_drop (img : ByteBuf) (start : Nat) (hstart : start ≤ img.len) :
    ∀ n pos acc, parseWalk (img.drop start) n pos acc = parseWalk img n (start + pos) acc := by
  intro n
  induction n with
  | zero => intro pos acc; rfl
  | succ n ih =>
    intro pos acc
    rw [parseWalk_succ, parseWalk_succ]
    have hlen : (img.drop start).len = img.len - start := rfl
    by_cases h : pos + 8 ≤ (img.drop start).len
    · rw [if_pos h, if_pos (by rw [hlen] at h; omega), ih, segSizeAt_drop,
        show start + (pos + 8) = start + pos + 8 by omega]
    · rw [if_neg h, if_neg (by rw [hlen] at h; omega)]

/-- C4 (amended): the inspector derives a component's length by the same
header walk as `parse_esp32_image_header`, except that it reads its segment
count from the 32-bit little-endian word at bytes `start+4 .. start+7`
(not from byte 1), requires it to be 1..16, and clamps the end to the
buffer.  When that word equals the byte-1 segment count and the derived
total fits in the buffer, the inspector slice's length equals the size
computed by `parse_esp32_image_header` on the bytes from `start`. -/
theorem inspector_length_eq_parse (img : ByteBuf) (start next sz loc : Nat)
    (h24 : start + 24 ≤ img.len)
    (hmagic : img.get start = 233)
    (hsc : leWord (img.get (start + 4)) (img.get (start + 5)) (img.get (start + 6))
        (img.get (start + 7)) = img.get (start + 1))
    (hsc1 : 1 ≤ img.get (start + 1))
    (hparse : parse_esp32_image_header (img.drop start) = .ok (sz, loc))
    (hfit : start + sz ≤ img.len) :
    Option.map ByteBuf.len (get_component_at_offset img start next) = some sz := by
  have hstartle : start ≤ img.len := by omega
  have hdlen : (img.drop start).len = img.len - start := rfl
  -- Reduce the parse of the dropped buffer.
  unfold parse_esp32_image_header at hparse
  rw [if_neg (by rw [hdlen]; omega)] at hparse
  rw [if_neg (show ¬((img.drop start).get 0 ≠ 233) from fun hx => hx hmagic)] at hparse
  dsimp only at hparse
  rw [show (img.drop start).get 1 = img.get (start + 1) from rfl,
    show (img.drop start).get 3 = img.get (start + 3) from rfl] at hparse
  by_cases hsc16 : 16 < img.get (start + 1)
  · rw [if_pos hsc16] at hparse
    exact absurd hparse (by simp)
  · rw [if_neg hsc16] at hparse
    simp only [Except.ok.injEq, Prod.mk.injEq] at hparse
    obtain ⟨hsz, -⟩ := hparse
    -- Evaluate the inspector's header branch.
    have htot : inspWalk img (img.get (start + 1))
        (start + (24 + (if Nat.testBit (img.get (start + 3)) 7 then 16 else 0)
          + img.get (start + 1) * 8))
        (24 + (if Nat.testBit (img.get (start + 3)) 7 then 16 else 0)
          + img.get (start + 1) * 8) + 1 = sz := by
      rw [inspWalk_eq_parseWalk, ← parseWalk_drop img start hstartle]
      exact hsz
    have hheader : inspectHeaderSlice img start
        = some (img.slice start (start + sz)) := by
      unfold inspectHeaderSlice
      rw [if_pos h24]
      dsimp only
      rw [hsc]
      rw [if_pos (by constructor <;> omega)]
      rw [htot, Nat.min_eq_left hfit, if_pos (by omega)]
    -- Final assembly.
    unfold get_component_at_offset
    rw [if_neg (by omega), if_neg (show ¬(img.get start ≠ 233) from fun hx => hx hmagic)]
    rw [hheader]
    show some (img.slice start (start + sz)).len = some sz
    unfold ByteBuf.slice
    simp only [Option.some.injEq]
    omega

/-- C4 counterexample: the claim as stated is false.  In a 33-byte buffer
`E9 00 00 00 01 00 ...` the magic matches and 24 header bytes are
available, yet the inspector derives length 33 (its segment count is the
word `1` at bytes 4-7, and it clamps to the buffer end) while
`parse_esp32_image_header` (whose segment count is byte 1 = 0) computes
size 25. -/
theorem inspector_length_cex :
    Option.map ByteBuf.len
        (get_component_at_offset
          (ByteBuf.ofList (233 :: 0 :: 0 :: 0 :: 1 :: List.replicate 28 0)) 0 32768)
      = some 33
    ∧ parse_esp32_image_header
        ((ByteBuf.ofList (233 :: 0 :: 0 :: 0 :: 1 :: List.replicate 28 0)).drop 0)
      = .ok (25, 24)
    ∧ (33 : Nat) ≠ 25 :=
  ⟨rfl, rfl, by decide⟩

/-- C4 witness: a 41-byte buffer whose byte-1 segment count equals the
word at bytes 4-7 (both 1) and whose derived size 33 fits in the buffer;
the inspector's slice length equals the parsed size. -/
theorem inspector_length_eq_parse_witness :
    Option.map ByteBuf.len
        (get_component_at_offset
          (ByteBuf.ofList ([233, 1, 0, 0, 1, 0, 0, 0] ++ List.replicate 33 0)) 0 32768)
      = some 33 :=
  inspector_length_eq_parse
    (ByteBuf.ofList ([233, 1, 0, 0, 1, 0, 0, 0] ++ List.replicate 33 0)) 0 32768 33 32
    (by decide) (by decide) (by decide) (by decide) rfl (by decide)

/-! ### Per-component processing (src/esp32.rs lines 227-372) -/

/-- `Esp32P4Processor::process_bootloader_image` (src/esp32.rs lines
227-279): validates the length and magic byte only.  The remainder of the
Rust function is logging, a conditional whose two branches both write
nothing (the extended-header experiment is disabled), and comments; no
byte of the buffer is modified, so the function returns its input. -/
def process_bootloader_image (b : ByteBuf) : Except Err ByteBuf :=
  if b.len < 24 then .error .tooSmall
  else if b.get 0 ≠ 233 then .error .badMagic
  else .ok b

/-- `Esp32P4Processor::process_app_image` (src/esp32.rs lines 289-345):
validates length and magic, rejects a length that is not a multiple of the
write alignment (16 when encrypted, 4 otherwise), then patches the
checksum in place. -/
def process_app_image (b : ByteBuf) (encrypted : Bool) : Except Err ByteBuf :=
  if b.len < 24 then .error .tooSmall
  else if b.get 0 ≠ 233 then .error .badMagic
  else
    let alignment := if encrypted then 16 else 4
    let padding_needed := (alignment - b.len % alignment) % alignment
    if 0 < padding_needed then .error .misaligned
    else
      match calculate_and_patch_checksum b with
      | .error e => .error e
      | .ok (d, _) => .ok d

/-- `Esp32P4Processor::verify_alignment` (src/esp32.rs lines 355-372). -/
def verify_alignment (offset : Nat) (is_app_partition : Bool) : Except Err Unit :=
  let required_alignment := if is_app_partition then 65536 else 4096
  if offset % required_alignment ≠ 0 then .error .notAligned
  else .ok ()

/-- C9: bootloader processing is a validation-only no-op: it fails exactly
when the buffer is shorter than 24 bytes or its byte 0 is not `0xE9`, and
on success returns the buffer with every byte unchanged (the source
mutates nothing: its checksum byte and header fields are left as-is). -/
theorem process_bootloader_noop (b : ByteBuf) :
    ((∃ r, process_bootloader_image b = .ok r) ↔ (24 ≤ b.len ∧ b.get 0 = 233))
    ∧ (∀ r, process_bootloader_image b = .ok r → r = b) := by
  unfold process_bootloader_image
  by_cases h24 : b.len < 24
  · rw [if_pos h24]
    constructor
    · constructor
      · rintro ⟨r, hr⟩; exact absurd hr (by simp)
      · rintro ⟨h, _⟩; omega
    · intro r hr; exact absurd hr (by simp)
  · rw [if_neg h24]
    by_cases hm : b.get 0 = 233
    · rw [if_neg (show ¬(b.get 0 ≠ 233) from fun hx => hx hm)]
      constructor
      · exact iff_of_true ⟨b, rfl⟩ ⟨by omega, hm⟩
      · intro r hr
        simp only [Except.ok.injEq] at hr
        exact hr.symm
    · rw [if_pos hm]
      constructor
      · constructor
        · rintro ⟨r, hr⟩; exact absurd hr (by simp)
        · rintro ⟨_, h0⟩; exact absurd h0 hm
      · intro r hr; exact absurd hr (by simp)

/-- C9 witness: a concrete 24-byte buffer with valid magic is accepted and
returned unchanged. -/
theorem process_bootloader_noop_witness :
    process_bootloader_image (ByteBuf.ofList (233 :: List.replicate 23 0))
      = .ok (ByteBuf.ofList (233 :: List.replicate 23 0)) := by
  obtain ⟨r, hr⟩ := (process_bootloader_noop
    (ByteBuf.ofList (233 :: List.replicate 23 0))).1.2 (by constructor <;> decide)
  rw [hr, (process_bootloader_noop (ByteBuf.ofList (233 :: List.replicate 23 0))).2 r hr]

/-! ### Partition table builder (src/partition/mod.rs; constants from
src/config/mod.rs `defaults`).  All `u32` arithmetic wraps modulo `2^32`. -/

/-- Partition type (`esp_idf_part::Type`). -/
inductive PType where
  | app
  | data
  deriving DecidableEq, Repr

/-- Partition subtype (`esp_idf_part::SubType` as used by the generator):
factory, the data subtypes, and the OTA slot subtypes. -/
inductive PSubType where
  | factory
  | phy
  | nvs
  | otaData
  | otaSlot (i : Nat)
  deriving DecidableEq, Repr

/-- One partition entry (`esp_idf_part::Partition`); the `Flags` argument
is `Flags::empty()` for every entry the generator builds and is omitted. -/
structure Partition where
  name : String
  ptype : PType
  subtype : PSubType
  offset : Nat
  size : Nat
  deriving DecidableEq, Repr

/-- A default entry for `List.getD` on partition lists. -/
def dP : Partition := ⟨"", .app, .factory, 0, 0⟩

/-- src/config/mod.rs lines 50-63. -/
def BOOTLOADER_OFFSET : Nat := 8192        -- 0x2000
def BOOTLOADER_SIZE : Nat := 24576         -- 24 KiB
def PARTITION_TABLE_OFFSET : Nat := 65536  -- 0x10000
def PARTITION_TABLE_SIZE : Nat := 4096     -- 4 KiB
def NVS_OFFSET : Nat := 36864              -- 0x9000
def NVS_SIZE : Nat := 4096                 -- 4 KiB
def OTADATA_OFFSET : Nat := 40960          -- 0xA000
def OTADATA_SIZE : Nat := 8192             -- 8 KiB
def FACTORY_OFFSET : Nat := 131072         -- 0x20000
def FACTORY_SIZE : Nat := 1048576          -- 1 MiB
def OTA_ALIGNMENT : Nat := 65536           -- 64 KiB

/-- `PartitionGenerator::align_up` (src/partition/mod.rs lines 180-182):
`((size + alignment - 1) / alignment) * alignment` in wrapping `u32`
arithmetic (`size + alignment - 1` can wrap for sizes near `u32::MAX`). -/
def align_up (size alignment : Nat) : Nat :=
  (size + alignment + U32 - 1) % U32 / alignment * alignment

/-- The OTA subtype `match i` of src/partition/mod.rs lines 87-105:
slot index 0-15, any larger index falling back to slot 0. -/
def otaSubtypeIdx (i : Nat) : Nat := if i ≤ 15 then i else 0

/-- `format!("ota_{}", i)`. -/
def mkOtaName (i : Nat) : String := "ota_" ++ toString i

/-- The four unconditional fixed entries (src/partition/mod.rs lines 19-57). -/
def fixedPartitions : List Partition :=
  [⟨"bootloader", .app, .factory, BOOTLOADER_OFFSET, BOOTLOADER_SIZE⟩,
   ⟨"partition-table", .data, .phy, PARTITION_TABLE_OFFSET, PARTITION_TABLE_SIZE⟩,
   ⟨"nvs", .data, .nvs, NVS_OFFSET, NVS_SIZE⟩,
   ⟨"otadata", .data, .otaData, OTADATA_OFFSET, OTADATA_SIZE⟩]

/-- The factory entry (src/partition/mod.rs lines 60-72): fixed offset,
size = the second firmware's raw length rounded up to 64 KiB. -/
def factoryPartition (rawSize : Nat) : Partition :=
  ⟨"factory", .app, .factory, FACTORY_OFFSET, align_up rawSize OTA_ALIGNMENT⟩

/-- The OTA placement loop (src/partition/mod.rs lines 79-136): one slot
per remaining firmware in rank order at a running cursor, failing the
moment `current_offset + aligned_size > flash_size` (wrapping `u32`). -/
def buildOtas (flash_size : Nat) : List Nat → Nat → Nat → Except Err (List Partition)
  | [], _, _ => .ok []
  | s :: rest, i, current_offset =>
    let aligned := align_up s OTA_ALIGNMENT
    if flash_size < (current_offset + aligned) % U32 then .error .insufficientSpace
    else
      match buildOtas flash_size rest (i + 1) ((current_offset + aligned) % U32) with
      | .error e => .error e
      | .ok tail =>
        .ok (⟨mkOtaName i, .app, .otaSlot (otaSubtypeIdx i), current_offset, aligned⟩ :: tail)

/-- Insertion into a by-offset sorted list; equal offsets keep the insertee
first, so the full sort below is stable like Rust's `sort_by_key`. -/
def insertByOffset (p : Partition) : List Partition → List Partition
  | [] => [p]
  | q :: rest => if p.offset ≤ q.offset then p :: q :: rest else q :: insertByOffset p rest

/-- `partitions.sort_by_key(|p| p.offset())` (src/partition/mod.rs line 162). -/
def sortByOffset : List Partition → List Partition
  | [] => []
  | p :: rest => insertByOffset p (sortByOffset rest)

/-- The extent check of `validate_partition_table` (src/partition/mod.rs
lines 148-158): fail when `offset + size > flash_size` (wrapping `u32`). -/
def checkExtents (flash_size : Nat) : List Partition → Except Err Unit
  | [] => .ok ()
  | p :: rest =>
    if flash_size < (p.offset + p.size) % U32 then .error .exceedsFlash
    else checkExtents flash_size rest

/-- The adjacent-overlap check over the sorted list (src/partition/mod.rs
lines 160-175): fail when `current.offset + current.size > next.offset`. -/
def checkOverlaps : List Partition → Except Err Unit
  | [] => .ok ()
  | [_] => .ok ()
  | p :: q :: rest =>
    if q.offset < (p.offset + p.size) % U32 then .error .overlap
    else checkOverlaps (q :: rest)

/-- `PartitionGenerator::validate_partition_table` (src/partition/mod.rs
lines 147-178). -/
def validate_partition_table (ps : List Partition) (flash_size : Nat) : Except Err Unit :=
  match checkExtents flash_size ps with
  | .error e => .error e
  | .ok _ => checkOverlaps (sortByOffset ps)

/-- The partition list `generate_table` builds before validation
(src/partition/mod.rs lines 17-136): the four fixed entries, the factory
entry when at least two firmwares are present, then the OTA slots with the
cursor starting at `FACTORY_OFFSET + FACTORY_SIZE`.  The generator reads
only each firmware's `size`, so it is embedded over the size list. -/
def generate_candidates (sizes : List Nat) (flash_size max_ota_partitions : Nat) :
    Except Err (List Partition) :=
  let withFactory :=
    if 2 ≤ sizes.length then fixedPartitions ++ [factoryPartition (sizes.getD 1 0)]
    else fixedPartitions
  match buildOtas flash_size ((sizes.drop 2).take max_ota_partitions) 0
      (FACTORY_OFFSET + FACTORY_SIZE) with
  | .error e => .error e
  | .ok otas => .ok (withFactory ++ otas)

/-- `PartitionGenerator::generate_table` (src/partition/mod.rs lines
11-145): build the candidate list, validate it, return it. -/
def generate_table (sizes : List Nat) (flash_size max_ota_partitions : Nat) :
    Except Err (List Partition) :=
  match generate_candidates sizes flash_size max_ota_partitions with
  | .error e => .error e
  | .ok partitions =>
    match validate_partition_table partitions flash_size with
    | .error e => .error e
    | .ok _ => .ok partitions

/-! ### C8: the validation postcondition -/

theorem checkExtents_cons (flash_size : Nat) (p : Partition) (rest : List Partition) :
    checkExtents flash_size (p :: rest)
      = if flash_size < (p.offset + p.size) % U32 then .error .exceedsFlash
        else checkExtents flash_size rest := rfl

theorem checkOverlaps_cons2 (p q : Partition) (rest : List Partition) :
    checkOverlaps (p :: q :: rest)
      = if q.offset < (p.offset + p.size) % U32 then .error .overlap
        else checkOverlaps (q :: rest) := rfl

theorem checkExtents_ok (flash_size : Nat) :
    ∀ ps, checkExtents flash_size ps = .ok () →
      ∀ p ∈ ps, (p.offset + p.size) % U32 ≤ flash_size := by
  intro ps
  induction ps with
  | nil => intro _ p hp; cases hp
  | cons q rest ih =>
    intro h p hp
    rw [checkExtents_cons] at h
    by_cases hc : flash_size < (q.offset + q.size) % U32
    · rw [if_pos hc] at h; exact absurd h (by simp)
    · rw [if_neg hc] at h
      cases hp with
      | head => omega
      | tail _ hmem => exact ih h p hmem

theorem checkOverlaps_ok :
    ∀ ps, checkOverlaps ps = .ok () →
      List.Chain' (fun p q => (p.offset + p.size) % U32 ≤ q.offset) ps := by
  intro ps
  induction ps with
  | nil => intro _; exact List.chain'_nil
  | cons p rest ih =>
    cases rest with
    | nil => intro _; simp
    | cons q rest2 =>
      intro h
      rw [checkOverlaps_cons2] at h
      by_cases hc : q.offset < (p.offset + p.size) % U32
      · rw [if_pos hc] at h; exact absurd h (by simp)
      · rw [if_neg hc] at h
        exact List.chain'_cons.2 ⟨by omega, ih h⟩

theorem validate_ok_elim (ps : List Partition) (flash_size : Nat)
    (h : validate_partition_table ps flash_size = .ok ()) :
    checkExtents flash_size ps = .ok () ∧ checkOverlaps (sortByOffset ps) = .ok () := by
  unfold validate_partition_table at h
  cases hce : checkExtents flash_size ps with
  | error e => rw [hce] at h; exact absurd h (by simp)
  | ok u =>
    cases u
    rw [hce] at h
    dsimp only at h
    exact ⟨rfl, h⟩

theorem generate_table_ok_elim (sizes : List Nat) (flash_size max_ota : Nat)
    (ps : List Partition) (h : generate_table sizes flash_size max_ota = .ok ps) :
    generate_candidates sizes flash_size max_ota = .ok ps
      ∧ validate_partition_table ps flash_size = .ok () := by
  unfold generate_table at h
  cases hc : generate_candidates sizes flash_size max_ota with
  | error e => rw [hc] at h; exact absurd h (by simp)
  | ok ps0 =>
    rw [hc] at h
    dsimp only at h
    cases hv : validate_partition_table ps0 flash_size with
    | error e => rw [hv] at h; exact absurd h (by simp)
    | ok u =>
      cases u
      rw [hv] at h
      dsimp only at h
      simp only [Except.ok.injEq] at h
      subst h
      exact ⟨rfl, hv⟩

/-- C8 (amended): every partition table returned by `generate_table`
passed validation, so, in the wrapping 32-bit arithmetic the checks use,
every entry's `(offset + size) % 2^32 ≤ capacity`, and after sorting by
offset each adjacent pair satisfies
`(offset + size) % 2^32 ≤ next.offset`.  For any entry whose extent does
not overflow `u32` (every realistic one) the unwrapped bound
`offset + size ≤ capacity` follows; the claim's unwrapped reading fails
only through 32-bit wrap-around (see the counterexample). -/
theorem generate_table_valid (sizes : List Nat) (flash_size max_ota : Nat)
    (ps : List Partition) (h : generate_table sizes flash_size max_ota = .ok ps) :
    (∀ p ∈ ps, (p.offset + p.size) % U32 ≤ flash_size)
    ∧ (∀ p ∈ ps, p.offset + p.size < U32 → p.offset + p.size ≤ flash_size)
    ∧ List.Chain' (fun p q => (p.offset + p.size) % U32 ≤ q.offset) (sortByOffset ps) := by
  obtain ⟨-, hval⟩ := generate_table_ok_elim sizes flash_size max_ota ps h
  obtain ⟨hce, hco⟩ := validate_ok_elim ps flash_size hval
  refine ⟨checkExtents_ok flash_size ps hce, ?_, checkOverlaps_ok _ hco⟩
  intro p hp hlt
  have := checkExtents_ok flash_size ps hce p hp
  rwa [Nat.mod_eq_of_lt hlt] at this

/-- C8 counterexample: the claim's unwrapped reading is false.  With a
second firmware of size `0xFFFF0000` (whose 64 KiB round-up stays
`0xFFFF0000`), the factory entry's true extent `0x20000 + 0xFFFF0000`
exceeds the 16 MiB capacity, but the `u32` extent check computes
`(0x20000 + 0xFFFF0000) % 2^32 = 0x10000 ≤ capacity`, so `generate_table`
returns the table instead of failing. -/
theorem generate_table_valid_cex :
    (match generate_table [32768, 4294901760] 16777216 16 with
      | .ok ps => ps.any (fun p => decide (16777216 < p.offset + p.size))
      | .error _ => false) = true := by
  decide

/-- C8 witness: on a realistic input the returned table satisfies the
wrapped extent bound (and hence, extents being small, the true bound). -/
theorem generate_table_valid_witness :
    ∃ ps, generate_table [32768, 102400] 16777216 16 = .ok ps
      ∧ ∀ p ∈ ps, (p.offset + p.size) % U32 ≤ 16777216 := by
  refine ⟨_, rfl, ?_⟩
  exact (generate_table_valid [32768, 102400] 16777216 16 _ rfl).1

/-! ### C3: OTA slot layout -/

theorem buildOtas_cons (flash_size s : Nat) (rest : List Nat) (i cur : Nat) :
    buildOtas flash_size (s :: rest) i cur
      = if flash_size < (cur + align_up s OTA_ALIGNMENT) % U32 then .error .insufficientSpace
        else
          match buildOtas flash_size rest (i + 1) ((cur + align_up s OTA_ALIGNMENT) % U32) with
          | .error e => .error e
          | .ok tail =>
            .ok (⟨mkOtaName i, .app, .otaSlot (otaSubtypeIdx i), cur,
              align_up s OTA_ALIGNMENT⟩ :: tail) := rfl

/-- Shape of a successful OTA placement: one entry per input in rank
order, whose names, aligned sizes, head offset, and cursor-advancing
offsets are as the loop computes them. -/
theorem buildOtas_ok (flash_size : Nat) :
    ∀ (l : List Nat) (i cur : Nat) (otas : List Partition),
      buildOtas flash_size l i cur = .ok otas →
      otas.length = l.length
      ∧ (∀ k, k < otas.length →
          (otas.getD k dP).name = mkOtaName (i + k)
          ∧ (otas.getD k dP).size = align_up (l.getD k 0) OTA_ALIGNMENT)
      ∧ (0 < otas.length → (otas.getD 0 dP).offset = cur)
      ∧ (∀ k, k + 1 < otas.length →
          (otas.getD (k + 1) dP).offset
            = ((otas.getD k dP).offset + (otas.getD k dP).size) % U32) := by
  intro l
  induction l with
  | nil =>
    intro i cur otas h
    have hnil : otas = [] := by
      have h' : Except.ok (ε := Err) ([] : List Partition) = .ok otas := h
      simpa using h'.symm
    subst hnil
    exact ⟨rfl,
      fun k hk => absurd hk (by simp),
      fun h0 => absurd h0 (by simp),
      fun k hk => absurd hk (by simp)⟩
  | cons s rest ih =>
    intro i cur otas h
    rw [buildOtas_cons] at h
    by_cases hsp : flash_size < (cur + align_up s OTA_ALIGNMENT) % U32
    · rw [if_pos hsp] at h; exact absurd h (by simp)
    · rw [if_neg hsp] at h
      cases ht : buildOtas flash_size rest (i + 1) ((cur + align_up s OTA_ALIGNMENT) % U32) with
      | error e => rw [ht] at h; exact absurd h (by simp)
      | ok tail =>
        rw [ht] at h
        dsimp only at h
        simp only [Except.ok.injEq] at h
        subst h
        obtain ⟨hlen, hnk, hoff0, hadj⟩ := ih (i + 1) ((cur + align_up s OTA_ALIGNMENT) % U32) tail ht
        refine ⟨by simp [hlen], ?_, ?_, ?_⟩
        · intro k hk
          cases k with
          | zero =>
            constructor
            · show mkOtaName i = mkOtaName (i + 0)
              rw [Nat.add_zero]
            · rfl
          | succ k' =>
            have hk' : k' < tail.length := by
              simp only [List.length_cons] at hk
              omega
            obtain ⟨hn, hs⟩ := hnk k' hk'
            constructor
            · show (tail.getD k' dP).name = mkOtaName (i + (k' + 1))
              rw [hn]
              congr 1
              omega
            · show (tail.getD k' dP).size = align_up (rest.getD k' 0) OTA_ALIGNMENT
              exact hs
        · intro _
          rfl
        · intro k hk
          cases k with
          | zero =>
            have h0 : 0 < tail.length := by
              simp only [List.length_cons] at hk
              omega
            show (tail.getD 0 dP).offset = (cur + align_up s OTA_ALIGNMENT) % U32
            exact hoff0 h0
          | succ k' =>
            have hk' : k' + 1 < tail.length := by
              simp only [List.length_cons] at hk
              omega
            show (tail.getD (k' + 1) dP).offset
              = ((tail.getD k' dP).offset + (tail.getD k' dP).size) % U32
            exact hadj k' hk'

theorem generate_candidates_ok_elim (sizes : List Nat) (flash_size max_ota : Nat)
    (ps : List Partition) (h : generate_candidates sizes flash_size max_ota = .ok ps)
    (h2 : 2 ≤ sizes.length) :
    ∃ otas, buildOtas flash_size ((sizes.drop 2).take max_ota) 0
        (FACTORY_OFFSET + FACTORY_SIZE) = .ok otas
      ∧ ps = (fixedPartitions ++ [factoryPartition (sizes.getD 1 0)]) ++ otas := by
  unfold generate_candidates at h
  dsimp only at h
  cases hb : buildOtas flash_size ((sizes.drop 2).take max_ota) 0
      (FACTORY_OFFSET + FACTORY_SIZE) with
  | error e => rw [hb] at h; exact absurd h (by simp)
  | ok otas =>
    rw [hb] at h
    dsimp only at h
    rw [if_pos h2] at h
    simp only [Except.ok.injEq] at h
    exact ⟨otas, rfl, h.symm⟩

/-- C3 (amended): in every table returned by `generate_table` with at
least three firmwares, the factory entry (position 4) has the fixed
factory offset and size = the second firmware's raw length rounded up to
64 KiB, the OTA entries follow, named `ota_k` in rank order with 64
KiB-rounded sizes, the first OTA entry's offset is the fixed
`FACTORY_OFFSET + FACTORY_SIZE` (the end of the reserved 1 MiB factory
region, NOT the factory entry's offset plus its aligned size), and each
next OTA offset is the previous offset plus its size (wrapping `u32`). -/
theorem generate_table_ota_layout (sizes : List Nat) (flash_size max_ota : Nat)
    (ps : List Partition) (h : generate_table sizes flash_size max_ota = .ok ps)
    (h3 : 3 ≤ sizes.length) :
    ps.length = 5 + min max_ota (sizes.length - 2)
    ∧ ps.getD 4 dP = factoryPartition (sizes.getD 1 0)
    ∧ (∀ k, k < ps.length - 5 →
        (ps.getD (5 + k) dP).name = mkOtaName k
        ∧ (ps.getD (5 + k) dP).size = align_up (sizes.getD (2 + k) 0) OTA_ALIGNMENT)
    ∧ (5 < ps.length → (ps.getD 5 dP).offset = FACTORY_OFFSET + FACTORY_SIZE)
    ∧ (∀ k, 5 + k + 1 < ps.length →
        (ps.getD (5 + k + 1) dP).offset
          = ((ps.getD (5 + k) dP).offset + (ps.getD (5 + k) dP).size) % U32) := by
  obtain ⟨hc, -⟩ := generate_table_ok_elim _ _ _ _ h
  obtain ⟨otas, hb, hps⟩ := generate_candidates_ok_elim _ _ _ _ hc (by omega)
  obtain ⟨hlen, hnames, hoff0, hadj⟩ := buildOtas_ok _ _ _ _ _ hb
  have hfl : (fixedPartitions ++ [factoryPartition (sizes.getD 1 0)]).length = 5 := rfl
  have hpslen : ps.length = 5 + otas.length := by
    rw [hps, List.length_append, hfl]
  have hget : ∀ k, ps.getD (5 + k) dP = otas.getD k dP := by
    intro k
    rw [hps, List.getD_append_right _ _ _ _ (by rw [hfl]; omega)]
    congr 1
    rw [hfl]
    omega
  have hlen2 : otas.length = min max_ota (sizes.length - 2) := by
    rw [hlen]
    simp
  refine ⟨by omega, ?_, ?_, ?_, ?_⟩
  · rw [hps, List.getD_append _ _ _ _ (by rw [hfl]; omega)]
    rfl
  · intro k hk
    have hk2 : k < otas.length := by omega
    rw [hget k]
    obtain ⟨hn, hs⟩ := hnames k hk2
    constructor
    · rw [hn]
      congr 1
      omega
    · rw [hs]
      congr 1
      have hkmax : k < max_ota := by omega
      rw [show ((sizes.drop 2).take max_ota).getD k 0 = (sizes.drop 2).getD k 0 by
          simp [List.getD, List.getElem?_take, hkmax],
        getD_drop]
  · intro h5
    have hget5 : ps.getD 5 dP = otas.getD 0 dP := hget 0
    rw [hget5]
    exact hoff0 (by omega)
  · intro k hk
    have hgk1 : ps.getD (5 + k + 1) dP = otas.getD (k + 1) dP := hget (k + 1)
    rw [hgk1, hget k]
    exact hadj k (by omega)

/-- C3 counterexample: the claim as stated is false.  With firmwares of
sizes 32 KiB, 64 KiB, 64 KiB the factory entry is (offset `0x20000`,
size `0x10000`), so the claim places `ota_0` at `0x30000 = 196608`;
`generate_table` succeeds but actually places `ota_0` at the fixed
`FACTORY_OFFSET + FACTORY_SIZE = 0x120000 = 1179648`. -/
theorem generate_table_ota_layout_cex :
    (match generate_table [32768, 65536, 65536] 16777216 16 with
      | .ok ps =>
        decide ((ps.getD 5 dP).name = "ota_0")
          && decide ((ps.getD 4 dP).name = "factory")
          && decide ((ps.getD 4 dP).offset + (ps.getD 4 dP).size = 196608)
          && decide ((ps.getD 5 dP).offset = 1179648)
          && !decide ((ps.getD 5 dP).offset = (ps.getD 4 dP).offset + (ps.getD 4 dP).size)
      | .error _ => false) = true := by
  decide

/-- C3 witness: a concrete instance of the amended theorem; `ota_0` sits
at the fixed offset `0x120000`. -/
theorem generate_table_ota_layout_witness :
    ∃ ps, generate_table [32768, 65536, 65536] 16777216 16 = .ok ps
      ∧ (ps.getD 5 dP).offset = 1179648 := by
  refine ⟨_, rfl, ?_⟩
  exact (generate_table_ota_layout [32768, 65536, 65536] 16777216 16 _ rfl
    (by decide)).2.2.2.1 (by decide)

/-! ### Image assembler (src/image/mod.rs) -/

/-- The grow-then-copy step of the minimal-buffer writer (src/image/mod.rs
lines 152-160, 176-184, 200-208, 230-238): when `offset + data.len()`
exceeds the buffer length, resize with `0xFF` filler, then copy the data
at `offset`. -/
def growWrite (buf : ByteBuf) (offset : Nat) (d : ByteBuf) : ByteBuf :=
  let grown : ByteBuf :=
    if buf.len < offset + d.len
    then ⟨offset + d.len, fun i => if i < buf.len then buf.get i else 255⟩
    else buf
  ⟨grown.len, fun i => if offset ≤ i ∧ i < offset + d.len then d.get (i - offset) else grown.get i⟩

/-- `ImageBuilder::write_to_flash` (src/image/mod.rs lines 286-301):
bounds-checked copy into a pre-sized buffer. -/
def write_to_flash (flash_image : ByteBuf) (offset : Nat) (d : ByteBuf) : Except Err ByteBuf :=
  if flash_image.len < offset + d.len then .error .outOfBounds
  else .ok ⟨flash_image.len,
    fun i => if offset ≤ i ∧ i < offset + d.len then d.get (i - offset) else flash_image.get i⟩

/-- Modelled from the spec: `esp_idf_part::PartitionTable::find` is code
of a collaborating crate outside this repository; §4.3 of the spec says
OTA slots are looked up in the table by their generated name
`ota_<index>`, so it is modelled as first match by name. -/
def findPartition (table : List Partition) (n : String) : Option Partition :=
  table.find? (fun p => p.name == n)

/-- The OTA loop of the minimal-buffer writer (src/image/mod.rs lines
219-248). -/
def writeOtasMinimal (table : List Partition) :
    List ByteBuf → Nat → ByteBuf → Except Err ByteBuf
  | [], _, buf => .ok buf
  | fw :: rest, i, buf =>
    match findPartition table (mkOtaName i) with
    | none => writeOtasMinimal table rest (i + 1) buf
    | some p =>
      match process_app_image fw false with
      | .error e => .error e
      | .ok d =>
        match verify_alignment p.offset true with
        | .error e => .error e
        | .ok _ => writeOtasMinimal table rest (i + 1) (growWrite buf p.offset d)

/-- The OTA loop of the padded writer (src/image/mod.rs lines 110-127). -/
def writeOtasPadded (table : List Partition) :
    List ByteBuf → Nat → ByteBuf → Except Err ByteBuf
  | [], _, buf => .ok buf
  | fw :: rest, i, buf =>
    match findPartition table (mkOtaName i) with
    | none => writeOtasPadded table rest (i + 1) buf
    | some p =>
      match process_app_image fw false with
      | .error e => .error e
      | .ok d =>
        match verify_alignment p.offset true with
        | .error e => .error e
        | .ok _ =>
          match write_to_flash buf p.offset d with
          | .error e => .error e
          | .ok buf2 => writeOtasPadded table rest (i + 1) buf2

/-- Bootloader step of the minimal writer (src/image/mod.rs lines 142-168). -/
def writeBootloaderMinimal (firmwares : List ByteBuf) (buf : ByteBuf) : Except Err ByteBuf :=
  match firmwares with
  | [] => .ok buf
  | fw0 :: _ =>
    match process_bootloader_image fw0 with
    | .error e => .error e
    | .ok d0 => .ok (growWrite buf BOOTLOADER_OFFSET d0)

/-- Factory step of the minimal writer (src/image/mod.rs lines 189-216). -/
def writeFactoryMinimal (firmwares : List ByteBuf) (buf : ByteBuf) : Except Err ByteBuf :=
  match firmwares with
  | _ :: fw1 :: _ =>
    match process_app_image fw1 false with
    | .error e => .error e
    | .ok d1 =>
      match verify_alignment FACTORY_OFFSET true with
      | .error e => .error e
      | .ok _ => .ok (growWrite buf FACTORY_OFFSET d1)
  | _ => .ok buf

/-- `ImageBuilder::write_components_to_minimal_buffer` (src/image/mod.rs
lines 133-256): bootloader at `BOOTLOADER_OFFSET`, the partition-table
blob at `PARTITION_TABLE_OFFSET`, the factory app at `FACTORY_OFFSET`,
then the OTA slots, into a buffer that starts empty and grows with `0xFF`
filler. -/
def write_components_to_minimal_buffer (firmwares : List ByteBuf) (pt : ByteBuf)
    (table : List Partition) : Except Err ByteBuf :=
  match writeBootloaderMinimal firmwares ⟨0, fun _ => 255⟩ with
  | .error e => .error e
  | .ok buf1 =>
    match writeFactoryMinimal firmwares (growWrite buf1 PARTITION_TABLE_OFFSET pt) with
    | .error e => .error e
    | .ok buf3 => writeOtasMinimal table (firmwares.drop 2) 0 buf3

/-- Bootloader step of the padded writer (src/image/mod.rs lines 61-78). -/
def writeBootloaderPadded (firmwares : List ByteBuf) (flash : ByteBuf) : Except Err ByteBuf :=
  match firmwares with
  | [] => .ok flash
  | fw0 :: _ =>
    match process_bootloader_image fw0 with
    | .error e => .error e
    | .ok d0 => write_to_flash flash BOOTLOADER_OFFSET d0

/-- Factory step of the padded writer (src/image/mod.rs lines 89-107). -/
def writeFactoryPadded (firmwares : List ByteBuf) (flash : ByteBuf) : Except Err ByteBuf :=
  match firmwares with
  | _ :: fw1 :: _ =>
    match process_app_image fw1 false with
    | .error e => .error e
    | .ok d1 =>
      match verify_alignment FACTORY_OFFSET true with
      | .error e => .error e
      | .ok _ => write_to_flash flash FACTORY_OFFSET d1
  | _ => .ok flash

/-- `ImageBuilder::write_components_to_buffer` (src/image/mod.rs lines
55-130): same components written into a pre-sized, `0xFF`-filled buffer
via bounds-checked writes. -/
def write_components_to_buffer (flash : ByteBuf) (firmwares : List ByteBuf) (pt : ByteBuf)
    (table : List Partition) : Except Err ByteBuf :=
  match writeBootloaderPadded firmwares flash with
  | .error e => .error e
  | .ok f1 =>
    match write_to_flash f1 PARTITION_TABLE_OFFSET pt with
    | .error e => .error e
    | .ok f2 =>
      match writeFactoryPadded firmwares f2 with
      | .error e => .error e
      | .ok f3 => writeOtasPadded table (firmwares.drop 2) 0 f3

/-- `ImageBuilder::build_flash_image` (src/image/mod.rs lines 12-52): the
partition-table blob `pt` stands for the output of
`serialize_partition_table` (the external `esp_idf_part` encoder, outside
this repository), treated per §4.3 of the spec as an opaque byte buffer.
Firmware sizes are `data.len() as u32`. -/
def build_flash_image (firmwares : List ByteBuf) (pt : ByteBuf)
    (flash_size max_ota : Nat) (pad_flash : Bool) : Except Err ByteBuf :=
  match generate_table (firmwares.map (fun f => f.len % U32)) flash_size max_ota with
  | .error e => .error e
  | .ok table =>
    if pad_flash then
      write_components_to_buffer ⟨flash_size, fun _ => 255⟩ firmwares pt table
    else
      write_components_to_minimal_buffer firmwares pt table

theorem build_flash_image_def (firmwares : List ByteBuf) (pt : ByteBuf)
    (flash_size max_ota : Nat) (pad_flash : Bool) :
    build_flash_image firmwares pt flash_size max_ota pad_flash
      = match generate_table (firmwares.map (fun f => f.len % U32)) flash_size max_ota with
        | .error e => .error e
        | .ok table =>
          if pad_flash then
            write_components_to_buffer ⟨flash_size, fun _ => 255⟩ firmwares pt table
          else
            write_components_to_minimal_buffer firmwares pt table := rfl

/-! ### Buffer-write lemmas -/

theorem growWrite_len (buf : ByteBuf) (offset : Nat) (d : ByteBuf) :
    (growWrite buf offset d).len = max buf.len (offset + d.len) := by
  unfold growWrite
  dsimp only
  split
  · dsimp only
    omega
  · omega

theorem growWrite_get_in (buf : ByteBuf) (offset : Nat) (d : ByteBuf) (i : Nat)
    (h1 : offset ≤ i) (h2 : i < offset + d.len) :
    (growWrite buf offset d).get i = d.get (i - offset) := by
  unfold growWrite
  dsimp only
  rw [if_pos ⟨h1, h2⟩]

theorem growWrite_get_old (buf : ByteBuf) (offset : Nat) (d : ByteBuf) (i : Nat)
    (h : ¬(offset ≤ i ∧ i < offset + d.len)) (hlt : i < buf.len) :
    (growWrite buf offset d).get i = buf.get i := by
  unfold growWrite
  dsimp only
  rw [if_neg h]
  split
  · dsimp only
    rw [if_pos hlt]
  · rfl

theorem growWrite_get_fill (buf : ByteBuf) (offset : Nat) (d : ByteBuf) (i : Nat)
    (h : ¬(offset ≤ i ∧ i < offset + d.len)) (hge : buf.len ≤ i)
    (hgrow : buf.len < offset + d.len) :
    (growWrite buf offset d).get i = 255 := by
  unfold growWrite
  dsimp only
  rw [if_neg h, if_pos hgrow]
  dsimp only
  rw [if_neg (by omega)]

theorem write_to_flash_ok_elim (flash : ByteBuf) (offset : Nat) (d r : ByteBuf)
    (h : write_to_flash flash offset d = .ok r) :
    offset + d.len ≤ flash.len ∧ r.len = flash.len
    ∧ (∀ i, offset ≤ i → i < offset + d.len → r.get i = d.get (i - offset))
    ∧ (∀ i, ¬(offset ≤ i ∧ i < offset + d.len) → r.get i = flash.get i) := by
  unfold write_to_flash at h
  by_cases hb : flash.len < offset + d.len
  · rw [if_pos hb] at h
    exact absurd h (by simp)
  · rw [if_neg hb] at h
    simp only [Except.ok.injEq] at h
    subst h
    refine ⟨by omega, rfl, ?_, ?_⟩
    · intro i h1 h2
      dsimp only
      rw [if_pos ⟨h1, h2⟩]
    · intro i hni
      dsimp only
      rw [if_neg hni]

/-! ### Processing-success elimination helpers -/

theorem process_bootloader_ok_elim (b r : ByteBuf)
    (h : process_bootloader_image b = .ok r) :
    r = b ∧ 24 ≤ b.len ∧ b.get 0 = 233 := by
  unfold process_bootloader_image at h
  by_cases h24 : b.len < 24
  · rw [if_pos h24] at h; exact absurd h (by simp)
  · rw [if_neg h24] at h
    by_cases hm : b.get 0 = 233
    · rw [if_neg (show ¬(b.get 0 ≠ 233) from fun hx => hx hm)] at h
      simp only [Except.ok.injEq] at h
      exact ⟨h.symm, by omega, hm⟩
    · rw [if_pos hm] at h; exact absurd h (by simp)

theorem process_app_ok_elim (b : ByteBuf) (encrypted : Bool) (d : ByteBuf)
    (h : process_app_image b encrypted = .ok d) :
    24 ≤ b.len ∧ b.get 0 = 233 ∧ d.len = b.len ∧ d.get 0 = b.get 0 := by
  unfold process_app_image at h
  by_cases h24 : b.len < 24
  · rw [if_pos h24] at h; exact absurd h (by simp)
  · rw [if_neg h24] at h
    by_cases hm : b.get 0 = 233
    · rw [if_neg (show ¬(b.get 0 ≠ 233) from fun hx => hx hm)] at h
      dsimp only at h
      by_cases hpad : 0 < ((if encrypted then 16 else 4) - b.len % (if encrypted then 16 else 4))
          % (if encrypted then 16 else 4)
      · rw [if_pos hpad] at h; exact absurd h (by simp)
      · rw [if_neg hpad] at h
        cases hp : calculate_and_patch_checksum b with
        | error e => rw [hp] at h; exact absurd h (by simp)
        | ok pair =>
          obtain ⟨d0, c⟩ := pair
          rw [hp] at h
          dsimp only at h
          simp only [Except.ok.injEq] at h
          subst h
          obtain ⟨hbl, hloc, hset, -⟩ := patch_ok_elim b d0 c hp
          refine ⟨by omega, hm, ?_, ?_⟩
          · rw [hset]; rfl
          · rw [hset]
            unfold ByteBuf.set
            dsimp only
            rw [if_neg (by omega)]
    · rw [if_pos hm] at h
      exact absurd h (by simp)

/-! ### C5: end-to-end minimal mode -/

/-- The minimal writer on a two-component input is three grow-writes. -/
theorem write_minimal_two (fw0 fw1 pt : ByteBuf) (table : List Partition) (d : ByteBuf)
    (hr : process_bootloader_image fw0 = .ok fw0)
    (hd : process_app_image fw1 false = .ok d) :
    write_components_to_minimal_buffer [fw0, fw1] pt table
      = .ok (growWrite (growWrite (growWrite ⟨0, fun _ => 255⟩ BOOTLOADER_OFFSET fw0)
          PARTITION_TABLE_OFFSET pt) FACTORY_OFFSET d) := by
  unfold write_components_to_minimal_buffer writeBootloaderMinimal writeFactoryMinimal
  dsimp only
  rw [hr]
  dsimp only
  rw [hd]
  rfl

/-- C5 (amended): for every two-component input whose first component is a
valid 32 KiB bootloader image and whose second is a valid 100 KiB
application image (both accepted by per-component processing), with
capacity 16 MiB and Minimal mode, `build_flash_image` succeeds, the output
is 233472 bytes (> 100 KiB and < 16 MiB), byte 0 of the output is the
`0xFF` fill byte (the bootloader is written at offset `0x2000`, not 0),
the byte at the bootloader offset `0x2000` equals byte 0 of the first
component, and the byte at the factory offset `0x20000` equals byte 0 of
the second component.  (The partition-table blob is bounded by its fixed
4 KiB region size.) -/
theorem build_minimal_layout (fw0 fw1 pt : ByteBuf)
    (hl0 : fw0.len = 32768) (hl1 : fw1.len = 102400) (hpt : pt.len ≤ 4096)
    (hb : ∃ r, process_bootloader_image fw0 = .ok r)
    (ha : ∃ d, process_app_image fw1 false = .ok d) :
    ∃ out, build_flash_image [fw0, fw1] pt 16777216 16 false = .ok out
      ∧ out.len = 233472
      ∧ 102400 < out.len ∧ out.len < 16777216
      ∧ out.get 0 = 255
      ∧ out.get 8192 = fw0.get 0
      ∧ out.get 131072 = fw1.get 0 := by
  obtain ⟨r, hr⟩ := hb
  obtain ⟨hrfw, -, -⟩ := process_bootloader_ok_elim fw0 r hr
  rw [hrfw] at hr
  obtain ⟨d, hd⟩ := ha
  obtain ⟨h24, -, hdlen, hdget⟩ := process_app_ok_elim fw1 false d hd
  have hmap : [fw0, fw1].map (fun f => f.len % U32) = [32768, 102400] := by
    have e0 : fw0.len % U32 = 32768 := by rw [hl0]; rfl
    have e1 : fw1.len % U32 = 102400 := by rw [hl1]; rfl
    show [fw0.len % U32, fw1.len % U32] = [32768, 102400]
    rw [e0, e1]
  have hgen : generate_table ([fw0, fw1].map (fun f => f.len % U32)) 16777216 16
      = generate_table [32768, 102400] 16777216 16 := by rw [hmap]
  have hsplit : ∀ T, generate_table ([fw0, fw1].map (fun f => f.len % U32)) 16777216 16 = .ok T →
      build_flash_image [fw0, fw1] pt 16777216 16 false
        = write_components_to_minimal_buffer [fw0, fw1] pt T := by
    intro T hT
    rw [build_flash_image_def, hT]
    rfl
  cases hg : generate_table [32768, 102400] 16777216 16 with
  | error e =>
    have hok : (generate_table [32768, 102400] 16777216 16).isOk = true := by decide
    rw [hg] at hok
    exact Bool.noConfusion hok
  | ok table =>
    have hbuild0 : build_flash_image [fw0, fw1] pt 16777216 16 false
        = write_components_to_minimal_buffer [fw0, fw1] pt table :=
      hsplit table (hgen.trans hg)
    rw [hbuild0]
    have hbuild := write_minimal_two fw0 fw1 pt table d hr hd
    have hlen0 : (⟨0, fun _ => 255⟩ : ByteBuf).len = 0 := rfl
    have hlen1 : (growWrite ⟨0, fun _ => 255⟩ BOOTLOADER_OFFSET fw0).len = 40960 := by
      rw [growWrite_len, hlen0, hl0]
      rfl
    have hlen2 : (growWrite (growWrite ⟨0, fun _ => 255⟩ BOOTLOADER_OFFSET fw0)
        PARTITION_TABLE_OFFSET pt).len = 65536 + pt.len := by
      rw [growWrite_len, hlen1]
      show max 40960 (65536 + pt.len) = 65536 + pt.len
      omega
    have hlen3 : (growWrite (growWrite (growWrite ⟨0, fun _ => 255⟩ BOOTLOADER_OFFSET fw0)
        PARTITION_TABLE_OFFSET pt) FACTORY_OFFSET d).len = 233472 := by
      rw [growWrite_len, hlen2, hdlen, hl1]
      show max (65536 + pt.len) (131072 + 102400) = 233472
      omega
    have hget0 : (growWrite (growWrite (growWrite ⟨0, fun _ => 255⟩ BOOTLOADER_OFFSET fw0)
        PARTITION_TABLE_OFFSET pt) FACTORY_OFFSET d).get 0 = 255 := by
      rw [growWrite_get_old _ _ _ 0
          (by show ¬(131072 ≤ 0 ∧ 0 < 131072 + d.len); omega)
          (by rw [hlen2]; omega)]
      rw [growWrite_get_old _ _ _ 0
          (by show ¬(65536 ≤ 0 ∧ 0 < 65536 + pt.len); omega)
          (by rw [hlen1]; omega)]
      exact growWrite_get_fill _ _ _ 0
        (by show ¬(8192 ≤ 0 ∧ 0 < 8192 + fw0.len); omega)
        (by rw [hlen0])
        (by rw [hlen0, hl0]; omega)
    have hget8192 : (growWrite (growWrite (growWrite ⟨0, fun _ => 255⟩ BOOTLOADER_OFFSET fw0)
        PARTITION_TABLE_OFFSET pt) FACTORY_OFFSET d).get 8192 = fw0.get 0 := by
      rw [growWrite_get_old _ _ _ 8192
          (by show ¬(131072 ≤ 8192 ∧ 8192 < 131072 + d.len); omega)
          (by rw [hlen2]; omega)]
      rw [growWrite_get_old _ _ _ 8192
          (by show ¬(65536 ≤ 8192 ∧ 8192 < 65536 + pt.len); omega)
          (by rw [hlen1]; omega)]
      rw [growWrite_get_in _ _ _ 8192
          (by show (8192:Nat) ≤ 8192; omega)
          (by show 8192 < 8192 + fw0.len; rw [hl0]; omega)]
      rw [show (8192:Nat) - BOOTLOADER_OFFSET = 0 from rfl]
    have hget131072 : (growWrite (growWrite (growWrite ⟨0, fun _ => 255⟩ BOOTLOADER_OFFSET fw0)
        PARTITION_TABLE_OFFSET pt) FACTORY_OFFSET d).get 131072 = fw1.get 0 := by
      rw [growWrite_get_in _ _ _ 131072
          (by show (131072:Nat) ≤ 131072; omega)
          (by show 131072 < 131072 + d.len; rw [hdlen, hl1]; omega)]
      rw [show (131072:Nat) - FACTORY_OFFSET = 0 from rfl]
      exact hdget
    exact ⟨_, hbuild, hlen3, by omega, by omega, hget0, hget8192, hget131072⟩

/-! ### Concrete components shared by the end-to-end theorems -/

/-- A concrete valid 32 KiB bootloader component. -/
def fw0c : ByteBuf := ⟨32768, fun i => if i = 0 then 233 else 0⟩

/-- A concrete valid 100 KiB application component. -/
def fw1c : ByteBuf := ⟨102400, fun i => if i = 0 then 233 else 0⟩

/-- A concrete partition-table blob: entries begin with the table magic
`0xAA 0x50` (spec §4.4). -/
def ptc : ByteBuf := ⟨3072, fun i => if i = 0 then 170 else 80⟩

/-- C5 counterexample: the claim as stated is false.  On a concrete valid
32 KiB + 100 KiB input, minimal-mode `build_flash_image` succeeds but
byte 0 of the output is the `0xFF` fill byte, not byte 0 of the first
component (which is the magic `0xE9`, written at offset `0x2000`). -/
theorem build_minimal_layout_cex :
    ∃ out, build_flash_image [fw0c, fw1c] ptc 16777216 16 false = .ok out
      ∧ out.get 0 ≠ fw0c.get 0 := by
  refine ⟨_, rfl, ?_⟩
  decide

/-- C5 witness: a concrete instance of the amended theorem. -/
theorem build_minimal_layout_witness :
    ∃ out, build_flash_image [fw0c, fw1c] ptc 16777216 16 false = .ok out
      ∧ out.len = 233472 ∧ out.get 0 = 255
      ∧ out.get 8192 = 233 ∧ out.get 131072 = 233 := by
  obtain ⟨out, h1, h2, -, -, h5, h6, h7⟩ :=
    build_minimal_layout fw0c fw1c ptc rfl rfl (by decide) ⟨fw0c, rfl⟩ ⟨_, rfl⟩
  exact ⟨out, h1, h2, h5, by rw [h6]; rfl, by rw [h7]; rfl⟩

/-! ### C1: the builder/inspector factory-offset divergence -/

/-- The padded writer on a two-component input decomposes into its four
sequential steps. -/
theorem write_padded_two_elim (flash fw0 fw1 pt : ByteBuf) (table : List Partition)
    (out : ByteBuf)
    (h : write_components_to_buffer flash [fw0, fw1] pt table = .ok out) :
    ∃ d0 d1 f1 f2, process_bootloader_image fw0 = .ok d0
      ∧ write_to_flash flash BOOTLOADER_OFFSET d0 = .ok f1
      ∧ write_to_flash f1 PARTITION_TABLE_OFFSET pt = .ok f2
      ∧ process_app_image fw1 false = .ok d1
      ∧ write_to_flash f2 FACTORY_OFFSET d1 = .ok out := by
  unfold write_components_to_buffer writeBootloaderPadded writeFactoryPadded at h
  dsimp only at h
  cases hb : process_bootloader_image fw0 with
  | error e => rw [hb] at h; exact absurd h (by simp)
  | ok d0 =>
    rw [hb] at h
    dsimp only at h
    cases hw1 : write_to_flash flash BOOTLOADER_OFFSET d0 with
    | error e => rw [hw1] at h; exact absurd h (by simp)
    | ok f1 =>
      rw [hw1] at h
      dsimp only at h
      cases hw2 : write_to_flash f1 PARTITION_TABLE_OFFSET pt with
      | error e => rw [hw2] at h; exact absurd h (by simp)
      | ok f2 =>
        rw [hw2] at h
        dsimp only at h
        cases ha : process_app_image fw1 false with
        | error e => rw [ha] at h; exact absurd h (by simp)
        | ok d1 =>
          rw [ha] at h
          dsimp only at h
          rw [show verify_alignment FACTORY_OFFSET true = .ok () from rfl] at h
          dsimp only at h
          cases hw3 : write_to_flash f2 FACTORY_OFFSET d1 with
          | error e => rw [hw3] at h; exact absurd h (by simp)
          | ok f3 =>
            rw [hw3] at h
            have h' : Except.ok (ε := Err) f3 = .ok out := h
            simp only [Except.ok.injEq] at h'
            subst h'
            refine ⟨d0, d1, f1, f2, ?_, ?_, ?_, ?_, ?_⟩ <;> first | rfl | assumption

/-- C1 (code-bug exhibit): on every padded image built from a bootloader
and a factory application (with a partition-table blob that starts with
the table magic `0xAA`), the builder has placed the partition table at
`0x10000` and the factory app at `0x20000` (src/config/mod.rs), but the
inspector probes the factory region at `0x10000` (src/main.rs line 428).
The byte there is `0xAA`, not the image magic `0xE9`, so the inspector's
factory probe returns "not found" and never verifies a checksum — the
round-trip property of the claim fails on the factory region. -/
theorem inspector_misses_factory (fw0 fw1 pt out : ByteBuf) (flash_size : Nat)
    (h : build_flash_image [fw0, fw1] pt flash_size 16 true = .ok out)
    (hpt0 : pt.get 0 = 170) (hptlen : 1 ≤ pt.len) :
    out.get 65536 = 170
    ∧ get_component_at_offset out 65536 131072 = none
    ∧ out.get 131072 = fw1.get 0 := by
  rw [build_flash_image_def] at h
  cases hg : generate_table ([fw0, fw1].map (fun f => f.len % U32)) flash_size 16 with
  | error e => rw [hg] at h; exact absurd h (by simp)
  | ok table =>
    rw [hg] at h
    dsimp only at h
    rw [if_pos rfl] at h
    obtain ⟨d0, d1, f1, f2, hb, hw1, hw2, ha, hw3⟩ :=
      write_padded_two_elim _ _ _ _ _ _ h
    obtain ⟨hw2b, hw2len, hw2in, hw2out⟩ := write_to_flash_ok_elim _ _ _ _ hw2
    obtain ⟨hw3b, hw3len, hw3in, hw3out⟩ := write_to_flash_ok_elim _ _ _ _ hw3
    obtain ⟨h24, -, hd1len, hd1get⟩ := process_app_ok_elim fw1 false d1 ha
    have hb2 : 65536 + pt.len ≤ f1.len := hw2b
    have hg65536 : out.get 65536 = 170 := by
      rw [hw3out 65536 (by show ¬(131072 ≤ 65536 ∧ 65536 < 131072 + d1.len); omega)]
      rw [hw2in 65536 (by show (65536:Nat) ≤ 65536; omega)
        (by show 65536 < 65536 + pt.len; omega)]
      rw [show (65536:Nat) - PARTITION_TABLE_OFFSET = 0 from rfl]
      exact hpt0
    have hout : 65536 + pt.len ≤ out.len := by
      rw [hw3len, hw2len]
      exact hb2
    refine ⟨hg65536, ?_, ?_⟩
    · unfold get_component_at_offset
      rw [if_neg (by omega : ¬ out.len ≤ 65536)]
      rw [if_pos (by rw [hg65536]; omega)]
    · rw [hw3in 131072 (by show (131072:Nat) ≤ 131072; omega)
        (by show 131072 < 131072 + d1.len; omega)]
      rw [show (131072:Nat) - FACTORY_OFFSET = 0 from rfl]
      exact hd1get

/-- C1 witness: on a concrete valid two-component input the padded build
succeeds, yet the inspector's factory probe at `0x10000` finds nothing. -/
theorem inspector_misses_factory_witness :
    ∃ out, build_flash_image [fw0c, fw1c] ptc 16777216 16 true = .ok out
      ∧ get_component_at_offset out 65536 131072 = none := by
  refine ⟨_, rfl, ?_⟩
  exact (inspector_misses_factory fw0c fw1c ptc _ 16777216 rfl rfl (by decide)).2.1
